import Mathlib

/-!
Shallow embedding of the RSS polling core of the asoubot repository
(src/rss.js, plus the interval configuration in index.js).

JavaScript strings are modelled as Lean `String` / `List Char`; the
JavaScript `Map<string, string|null>` holding last-seen tweet ids is a
function `String → Option (Option String)` (outer `none` = key absent,
inner `none` = stored `null`); `BigInt` comparison of the decimal digit
strings produced by id extraction is `Nat` comparison of their values;
fallible fetches are `Except Unit (Option Latest)`.  The DeepL provider
is an abstract `String → ProviderResult` with an error outcome.
-/

namespace Asoubot

/-- The set of characters treated as whitespace by JavaScript string
trimming, by the `Number` conversion, and by the regex class `\s`
(ASCII whitespace, NBSP, the Unicode space separators, LS, PS, BOM). -/
def isJsWhitespace (c : Char) : Bool :=
  let n := c.toNat
  n == 9 || n == 10 || n == 11 || n == 12 || n == 13 || n == 32 ||
  n == 160 || n == 0x1680 || (0x2000 ≤ n && n ≤ 0x200A) ||
  n == 0x2028 || n == 0x2029 || n == 0x202F || n == 0x205F ||
  n == 0x3000 || n == 0xFEFF

/-- JavaScript `String.prototype.trim` on a character list. -/
def jsTrim (l : List Char) : List Char :=
  ((l.dropWhile isJsWhitespace).reverse.dropWhile isJsWhitespace).reverse

/-- JavaScript `String.prototype.trim` on a `String`. -/
def strTrim (s : String) : String :=
  String.mk (jsTrim s.toList)

/-- Value of a decimal digit string (the `BigInt` a digit string denotes). -/
def decDigitsVal (l : List Char) : Nat :=
  l.foldl (fun n c => n * 10 + (c.toNat - 48)) 0

/-- `BigInt` value of a decimal digit string given as a `String`. -/
def strToNat (s : String) : Nat :=
  decDigitsVal s.toList

/-- One RSS feed item as consumed by rss.js: only its `title` and `link`
fields matter to the modelled fragment (`none` models a missing or
non-string field).  The publication timestamp is not part of the
modelled fragment; no claim mentions it. -/
structure Item where
  title : Option String
  link : Option String
deriving DecidableEq, Repr

/-- The characters of the literal `"/status/"` from the regex
`/\/status\/(\d+)/` in rss.js. -/
def statusPat : List Char := ['/', 's', 't', 'a', 't', 'u', 's', '/']

/-- The maximal run of leading decimal digits, i.e. what `(\d+)` captures
once the engine is positioned right after `/status/`. -/
def leadingDigits : List Char → List Char
  | [] => []
  | c :: cs => if c.isDigit then c :: leadingDigits cs else []

/-- Attempt to match `/status/(\d+)` at the current position. -/
def tryStatusAt (l : List Char) : Option (List Char) :=
  if statusPat.isPrefixOf l then
    let ds := leadingDigits (l.drop 8)
    if ds.isEmpty then none else some ds
  else none

/-- Left-to-right scan for the first match of `/status/(\d+)`, as the
JavaScript regex engine does for `link.match(/\/status\/(\d+)/)`. -/
def scanStatus : List Char → Option (List Char)
  | [] => none
  | c :: cs =>
    match tryStatusAt (c :: cs) with
    | some ds => some ds
    | none => scanStatus cs

/-- `extractTweetIdFromLink` from rss.js: `null` for an empty (falsy)
link, otherwise the first capture of `/\/status\/(\d+)/`. -/
def extractTweetIdFromLink (link : String) : Option String :=
  if link = "" then none
  else (scanStatus link.toList).map (fun ds => String.mk ds)

/-- Tweet id of an item: `extractTweetIdFromLink(it?.link)` in rss.js
(`null` when the link field is absent). -/
def extractId (it : Item) : Option String :=
  match it.link with
  | none => none
  | some s => extractTweetIdFromLink s

/-- Numeric key on which candidates are compared (`BigInt(id)`). -/
def pickKey (c : Item × String) : Nat := strToNat c.2

/-- One comparison step of a "keep the largest" fold:
`if (!best || key(x) > key(best)) best = x`. -/
def maxStep {α : Type} (f : α → Nat) (best : Option α) (x : α) : Option α :=
  match best with
  | none => some x
  | some b => if f b < f x then some x else some b

/-- The loop body of `pickLatestByStatusId`, iterating over the items and
keeping the item with the largest extracted status id. -/
def pickGo : Option (Item × String) → List Item → Option (Item × String)
  | best, [] => best
  | best, it :: rest =>
    match extractId it with
    | none => pickGo best rest
    | some id => pickGo (maxStep pickKey best (it, id)) rest

/-- `pickLatestByStatusId` from rss.js: choose the item whose extracted
status id is numerically largest; `null` when no item has one. -/
def pickLatestByStatusId (items : List Item) : Option (Item × String) :=
  pickGo none items

/-- An item paired with its extracted id, when it has one (the
candidates `pickLatestByStatusId` actually compares). -/
def pickCand (it : Item) : Option (Item × String) :=
  (extractId it).map (fun id => (it, id))

/-- The separator `"): "` searched for first by `extractOriginalText`. -/
def sepParen : List Char := [')', ':', ' ']

/-- The fallback separator `": "` of `extractOriginalText`. -/
def sepColon : List Char := [':', ' ']

/-- JavaScript `indexOf` of a fixed pattern: index of its first
occurrence, `none` when absent (JS returns `-1`). -/
def jsIndexOf (pat : List Char) : List Char → Option Nat
  | [] => none
  | c :: cs =>
    if pat.isPrefixOf (c :: cs) then some 0
    else (jsIndexOf pat cs).map (fun n => n + 1)

/-- The body of `extractOriginalText` from rss.js applied to the optional
title string: trim, return `""` for a missing or blank title, strip up to
and including the first `"): "`, else the first `": "`, else return the
trimmed title; the stripped remainder is trimmed again. -/
def extractTextFromTitle : Option String → String
  | none => ""
  | some t =>
    let title := jsTrim t.toList
    if title.isEmpty then ""
    else
      match jsIndexOf sepParen title with
      | some i => String.mk (jsTrim (title.drop (i + 3)))
      | none =>
        match jsIndexOf sepColon title with
        | some i => String.mk (jsTrim (title.drop (i + 2)))
        | none => String.mk title

/-- `extractOriginalText` from rss.js. -/
def extractOriginalText (it : Item) : String :=
  extractTextFromTitle it.title

/-- Case-insensitive match of one lowercase pattern character, as the
`i` flag of the URL regex allows. -/
def charCI (a c : Char) : Bool :=
  c = a || c = a.toUpper

/-- Match of `:\/\/\S+$` after the scheme name. -/
def urlTailOk (l : List Char) : Bool :=
  match l with
  | ':' :: '/' :: '/' :: rest =>
    !rest.isEmpty && rest.all (fun c => !isJsWhitespace c)
  | _ => false

/-- Whole-string test of the bare-URL regex `/^https?:\/\/\S+$/i`
from `translateToEnglish`. -/
def isBareUrl (l : List Char) : Bool :=
  match l with
  | c1 :: c2 :: c3 :: c4 :: rest =>
    charCI 'h' c1 && charCI 't' c2 && charCI 't' c3 && charCI 'p' c4 &&
      (urlTailOk rest ||
        (match rest with
         | c5 :: rest2 => charCI 's' c5 && urlTailOk rest2
         | [] => false))
  | _ => false

/-- Outcome of one DeepL `translateText` call: a result whose `text`
field may be absent (or the result itself nullish), or a thrown error. -/
inductive ProviderResult where
  | ok : Option String → ProviderResult
  | err : ProviderResult
deriving DecidableEq, Repr

/-- `translateToEnglish` from rss.js.  The configured translator is
`none` when `DEEPL_AUTH_KEY` is missing; otherwise the provider is the
abstract behaviour of `deeplTranslator.translateText`. -/
def translateToEnglish (provider : Option (String → ProviderResult))
    (originalText : String) : String :=
  let text := strTrim originalText
  if text = "" then ""
  else if isBareUrl text.toList then text
  else
    match provider with
    | none => text
    | some f =>
      match f text with
      | .err => text
      | .ok r =>
        match r with
        | none => ""
        | some rt => if rt = "" then "" else rt

/-- The per-user result of `fetchLatestTweet` (its timestamp field is
outside the modelled fragment; no claim mentions it). -/
structure Latest where
  username : String
  id : String
  url : String
  originalText : String
deriving DecidableEq, Repr

/-- Numeric key on which tweets are compared in `pollOnce`
(`BigInt(latest.id)`). -/
def latestKey (l : Latest) : Nat := strToNat l.id

/-- The pure part of `fetchLatestTweet` from rss.js, given the parsed
feed items: empty feed or no extractable id gives `null`; otherwise the
result carries the picked id, the extracted text, and a canonical URL
rebuilt as `https://x.com/<username>/status/<id>`. -/
def fetchLatestTweet (username : String) (items : List Item) : Option Latest :=
  if items.isEmpty then none
  else
    match pickLatestByStatusId items with
    | none => none
    | some (it, id) =>
      some { username := username
             id := id
             url := "https://x.com/" ++ username ++ "/status/" ++ id
             originalText := extractOriginalText it }

/-- The module-level map `g_lastSeenTweetIdByUser`:
outer `none` = key absent, inner `none` = stored `null`. -/
def SeenMap : Type := String → Option (Option String)

/-- The empty seen map (fresh process start). -/
def emptySeen : SeenMap := fun _ => none

/-- `g_lastSeenTweetIdByUser.set(u, v)`. -/
def setSeen (m : SeenMap) (u : String) (v : Option String) : SeenMap :=
  fun x => if x = u then some v else m x

/-- `g_lastSeenTweetIdByUser.get(u) || null`: an absent key, a stored
`null` and a stored empty string all collapse to `null`. -/
def lastIdNorm (m : SeenMap) (u : String) : Option String :=
  match m u with
  | none => none
  | some none => none
  | some (some s) => if s = "" then none else some s

/-- The newness test `pollOnce` applies: proceed unless
`latest.id === lastId` (string equality against the normalized stored
id). -/
def isNew (m : SeenMap) (u : String) (id : String) : Bool :=
  if lastIdNorm m u = some id then false else true

/-- Outcome of one `fetchLatestTweet` call as seen by its callers:
a thrown error, or `null`, or a latest tweet. -/
def FetchOutcome : Type := Except Unit (Option Latest)

/-- `primeLastSeen` from rss.js: for each username in order, store the
current latest id, or `null` on a failed or empty fetch. -/
def primeLastSeen (fetch : String → FetchOutcome) :
    List String → SeenMap → SeenMap
  | [], m => m
  | u :: rest, m =>
    let v : Option String :=
      match fetch u with
      | .error _ => none
      | .ok none => none
      | .ok (some l) => some l.id
    primeLastSeen fetch rest (setSeen m u v)

/-- The loop body of `pollOnce` from rss.js: skip a failed fetch, a
`null` result and an empty extracted text; skip when the id equals the
stored one; otherwise record the id and keep the tweet with the largest
id. -/
def pollGo (fetch : String → FetchOutcome) :
    List String → SeenMap → Option Latest → SeenMap × Option Latest
  | [], m, best => (m, best)
  | u :: rest, m, best =>
    match fetch u with
    | .error _ => pollGo fetch rest m best
    | .ok none => pollGo fetch rest m best
    | .ok (some latest) =>
      if latest.originalText = "" then pollGo fetch rest m best
      else if isNew m u latest.id then
        pollGo fetch rest (setSeen m u (some latest.id))
          (maxStep latestKey best latest)
      else pollGo fetch rest m best

/-- The notification object `pollOnce` returns for the winning tweet. -/
structure Notification where
  username : String
  id : String
  url : String
  originalText : String
  englishText : String
deriving DecidableEq, Repr

/-- Build the returned notification: the winning tweet plus its
translation. -/
def mkNote (provider : Option (String → ProviderResult)) (l : Latest) :
    Notification :=
  { username := l.username
    id := l.id
    url := l.url
    originalText := l.originalText
    englishText := translateToEnglish provider l.originalText }

/-- `pollOnce` from rss.js: run the loop body over all usernames, then
translate the winner (if any). -/
def pollOnce (provider : Option (String → ProviderResult))
    (fetch : String → FetchOutcome) (users : List String) (m : SeenMap) :
    SeenMap × Option Notification :=
  let r := pollGo fetch users m none
  (r.1, r.2.map (mkNote provider))

/-- The fan-out of one tick in `startRssLoop`: notify every guild whose
tracked-account list contains the tweet's username. -/
def notifyTargets (guildMap : List (String × List String))
    (t : Notification) : List (String × Notification) :=
  (guildMap.filter (fun p => p.2.contains t.username)).map (fun p => (p.1, t))

/-- One steady-state tick of `startRssLoop`: poll once over the current
username set, then fan out the winning tweet (if any) to the subscribed
guilds. -/
def tick (provider : Option (String → ProviderResult))
    (fetch : String → FetchOutcome) (guildMap : List (String × List String))
    (users : List String) (m : SeenMap) :
    SeenMap × List (String × Notification) :=
  let r := pollOnce provider fetch users m
  (r.1,
    match r.2 with
    | none => []
    | some t => notifyTargets guildMap t)

/-- The latest tweet a fetch yields, ignoring the thrown/`null`
distinction (used to state properties of `pollGo`). -/
def latestOk (fetch : String → FetchOutcome) (u : String) : Option Latest :=
  match fetch u with
  | .ok (some l) => some l
  | _ => none

/-- The tweet a user contributes to one tick against the starting seen
map: its fetched latest tweet when the fetch succeeded, the extracted
text is non-empty and the id passes the newness test. -/
def passEntry (fetch : String → FetchOutcome) (m₀ : SeenMap) (u : String) :
    Option Latest :=
  match latestOk fetch u with
  | none => none
  | some l => if l.originalText ≠ "" ∧ isNew m₀ u l.id = true then some l else none

/-- The seen-map updates one tick performs, computed against the
starting map `m₀`: each contributing user's stored id is overwritten by
its latest id. -/
def applyUpd (fetch : String → FetchOutcome) (m₀ : SeenMap) :
    List String → SeenMap → SeenMap
  | [], m => m
  | u :: rest, m =>
    applyUpd fetch m₀ rest
      (match passEntry fetch m₀ u with
       | some l => setSeen m u (some l.id)
       | none => m)

/-- A JavaScript number as far as the interval configuration needs it:
`NaN`, a signed infinity, or an exact finite value. -/
inductive JsNumber where
  | nan : JsNumber
  | inf : Bool → JsNumber
  | num : ℚ → JsNumber
deriving DecidableEq, Repr

/-- Value of a hexadecimal digit character. -/
def hexDigitVal (c : Char) : Nat :=
  if c.isDigit then c.toNat - 48
  else if 'a' ≤ c ∧ c ≤ 'f' then c.toNat - 87
  else if 'A' ≤ c ∧ c ≤ 'F' then c.toNat - 55
  else 0

/-- Hexadecimal digit test. -/
def isHexDigit (c : Char) : Bool :=
  c.isDigit || ('a' ≤ c && c ≤ 'f') || ('A' ≤ c && c ≤ 'F')

/-- Octal digit test. -/
def isOctDigit (c : Char) : Bool := '0' ≤ c && c ≤ '7'

/-- Binary digit test. -/
def isBinDigit (c : Char) : Bool := c = '0' || c = '1'

/-- Value of a digit string in radix `r` under digit valuation `dv`. -/
def radixVal (r : Nat) (dv : Char → Nat) (l : List Char) : Nat :=
  l.foldl (fun n c => n * r + dv c) 0

/-- The `0x` / `0o` / `0b` alternatives of the JavaScript
string-to-number grammar (no sign allowed before them). -/
def parseRadix (l : List Char) : Option ℚ :=
  match l with
  | '0' :: x :: ds =>
    if x = 'x' ∨ x = 'X' then
      if ds ≠ [] ∧ ds.all isHexDigit then some ((radixVal 16 hexDigitVal ds : Nat) : ℚ)
      else none
    else if x = 'o' ∨ x = 'O' then
      if ds ≠ [] ∧ ds.all isOctDigit then some ((radixVal 8 (fun c => c.toNat - 48) ds : Nat) : ℚ)
      else none
    else if x = 'b' ∨ x = 'B' then
      if ds ≠ [] ∧ ds.all isBinDigit then some ((radixVal 2 (fun c => c.toNat - 48) ds : Nat) : ℚ)
      else none
    else none
  | _ => none

/-- The optional exponent part that may follow a decimal mantissa; the
whole remainder must be consumed. -/
def parseExpAfter (l : List Char) : Option Int :=
  match l with
  | [] => some 0
  | c :: rest =>
    if c = 'e' ∨ c = 'E' then
      match rest with
      | '+' :: ds =>
        if ds ≠ [] ∧ ds.all Char.isDigit then some ((decDigitsVal ds : Nat) : Int) else none
      | '-' :: ds =>
        if ds ≠ [] ∧ ds.all Char.isDigit then some (-((decDigitsVal ds : Nat) : Int)) else none
      | ds =>
        if ds ≠ [] ∧ ds.all Char.isDigit then some ((decDigitsVal ds : Nat) : Int) else none
    else none

/-- The exact rational `digits × 10 ^ e`. -/
def decScaled (ds : List Char) (e : Int) : ℚ :=
  match e with
  | .ofNat k => ((decDigitsVal ds * 10 ^ k : Nat) : ℚ)
  | .negSucc k => Rat.divInt (Int.ofNat (decDigitsVal ds)) (Int.ofNat (10 ^ (k + 1)))

/-- An unsigned decimal literal `digits [. digits] [exponent]` (at least
one mantissa digit), as an exact rational. -/
def parseDecMantissa (l : List Char) : Option ℚ :=
  let ip := l.takeWhile Char.isDigit
  let r1 := l.dropWhile Char.isDigit
  match r1 with
  | '.' :: r2 =>
    let fp := r2.takeWhile Char.isDigit
    let r3 := r2.dropWhile Char.isDigit
    if ip.isEmpty ∧ fp.isEmpty then none
    else
      match parseExpAfter r3 with
      | some e => some (decScaled (ip ++ fp) (e - fp.length))
      | none => none
  | _ =>
    if ip.isEmpty then none
    else
      match parseExpAfter r1 with
      | some e => some (decScaled ip e)
      | none => none

/-- A possibly signed decimal literal or `Infinity`. -/
def signedBody (neg : Bool) (body : List Char) : JsNumber :=
  if body = ['I', 'n', 'f', 'i', 'n', 'i', 't', 'y'] then JsNumber.inf neg
  else
    match parseDecMantissa body with
    | some q => JsNumber.num (if neg then -q else q)
    | none => JsNumber.nan

/-- A non-empty trimmed numeric string: a radix literal, or a signed
decimal / `Infinity` literal, else `NaN`. -/
def parseNonEmpty (t : List Char) : JsNumber :=
  match parseRadix t with
  | some q => JsNumber.num q
  | none =>
    match t with
    | '-' :: body => signedBody true body
    | '+' :: body => signedBody false body
    | _ => signedBody false t

/-- JavaScript `Number(s)` for a string argument: trim the whitespace,
an empty remainder is `0`, otherwise parse the numeric literal. -/
def jsStringToNumber (s : String) : JsNumber :=
  match jsTrim s.toList with
  | [] => JsNumber.num 0
  | c :: rest => parseNonEmpty (c :: rest)

/-- `Number(process.env.RSS_INTERVAL_MS || 60_000)` from index.js:
an unset variable and the empty string are falsy and give `Number(60000)`;
any other string goes through string-to-number conversion. -/
def computeIntervalMs (env : Option String) : JsNumber :=
  match env with
  | none => JsNumber.num 60000
  | some s => if s = "" then JsNumber.num 60000 else jsStringToNumber s

/-- The destructuring default `intervalMs = 60_000` in `startRssLoop`:
it applies only when the option is absent (`undefined`). -/
def startRssLoopInterval (iv : Option JsNumber) : JsNumber :=
  iv.getD (JsNumber.num 60000)

/-- The interval `setInterval` receives: index.js always passes the
converted environment value, so the destructuring default never fires. -/
def intervalPassedToLoop (env : Option String) : JsNumber :=
  startRssLoopInterval (some (computeIntervalMs env))

/-- Fetch outcomes for the priming run of the decrease scenario:
`alice`'s latest tweet has id 10. -/
def exFetchTen : String → FetchOutcome :=
  fun _ => Except.ok (some ⟨"alice", "10", "https://x.com/alice/status/10", "hi"⟩)

/-- Fetch outcomes for the later tick of the decrease scenario:
`alice`'s latest tweet now has the smaller id 7. -/
def exFetchSeven : String → FetchOutcome :=
  fun _ => Except.ok (some ⟨"alice", "7", "https://x.com/alice/status/7", "ho"⟩)

/-- Latest tweet of identity `a` in the cross-identity scenario. -/
def exLatA : Latest := ⟨"a", "5", "https://x.com/a/status/5", "ta"⟩

/-- Latest tweet of identity `b` in the cross-identity scenario. -/
def exLatB : Latest := ⟨"b", "10", "https://x.com/b/status/10", "tb"⟩

/-- Fetch outcomes of the cross-identity scenario: `a` yields id 5,
`b` yields id 10, anything else fails. -/
def exFetchAB : String → FetchOutcome :=
  fun u =>
    if u = "a" then Except.ok (some exLatA)
    else if u = "b" then Except.ok (some exLatB)
    else Except.error ()

/-- Starting seen map of the cross-identity scenario: `a` was at 3,
`b` was at 1. -/
def exSeenAB : SeenMap :=
  setSeen (setSeen emptySeen "a" (some "3")) "b" (some "1")

/-- Guild subscriptions of the cross-identity scenario. -/
def exGuilds : List (String × List String) :=
  [("g1", ["a", "b"]), ("g2", ["a"])]

/-- Fetch outcomes of the failure scenario: fetching `bad` throws,
everything else yields an empty feed. -/
def exFetchBad : String → FetchOutcome :=
  fun u => if u = "bad" then Except.error () else Except.ok none

/-- A feed item on a Nitter host, for the canonical-URL scenario. -/
def exItemNitter : Item :=
  ⟨some "Jane (@jane): hello world", some "https://nitter.net/jane/status/123#m"⟩

/-- The fetch result of the canonical-URL scenario: the URL points at
x.com although the feed item lives on a Nitter host. -/
def exLatNitter : Latest :=
  ⟨"jane", "123", "https://x.com/jane/status/123", "hello world"⟩

end Asoubot

namespace Asoubot

/-! ## Basic facts about the seen map and the newness test -/

theorem setSeen_same (m : SeenMap) (u : String) (v : Option String) :
    setSeen m u v u = some v := by
  simp [setSeen]

theorem setSeen_other {x u : String} (m : SeenMap) (v : Option String)
    (h : x ≠ u) : setSeen m u v x = m x := by
  simp [setSeen, h]

theorem lastIdNorm_congr {m n : SeenMap} {u : String} (h : m u = n u) :
    lastIdNorm m u = lastIdNorm n u := by
  unfold lastIdNorm
  rw [h]

theorem isNew_congr {m n : SeenMap} {u : String} (h : m u = n u)
    (id : String) : isNew m u id = isNew n u id := by
  unfold isNew
  rw [lastIdNorm_congr h]

theorem lastIdNorm_absent {m : SeenMap} {u : String} (hm : m u = none) :
    lastIdNorm m u = none := by
  simp [lastIdNorm, hm]

theorem lastIdNorm_null {m : SeenMap} {u : String} (hm : m u = some none) :
    lastIdNorm m u = none := by
  simp [lastIdNorm, hm]

theorem lastIdNorm_str {m : SeenMap} {u s : String} (hm : m u = some (some s)) :
    lastIdNorm m u = if s = "" then none else some s := by
  simp [lastIdNorm, hm]

theorem lastIdNorm_some_inv {m : SeenMap} {u s : String}
    (h : lastIdNorm m u = some s) : m u = some (some s) ∧ s ≠ "" := by
  cases hm : m u with
  | none => rw [lastIdNorm_absent hm] at h; simp at h
  | some v =>
    cases v with
    | none => rw [lastIdNorm_null hm] at h; simp at h
    | some s2 =>
      rw [lastIdNorm_str hm] at h
      by_cases hs2 : s2 = ""
      · rw [if_pos hs2] at h
        simp at h
      · rw [if_neg hs2] at h
        injection h with h2
        subst h2
        exact ⟨rfl, hs2⟩

/-! ## The "keep the item with the largest key" fold -/

theorem maxStep_isSome {α : Type} (f : α → Nat) (s : Option α) (x : α) :
    ∃ c, maxStep f s x = some c := by
  cases s with
  | none => exact ⟨x, rfl⟩
  | some b =>
    by_cases h : f b < f x
    · exact ⟨x, by simp [maxStep, h]⟩
    · exact ⟨b, by simp [maxStep, h]⟩

theorem foldlMax_eq_none {α : Type} (f : α → Nat) :
    ∀ (l : List α) (s : Option α),
      l.foldl (maxStep f) s = none ↔ s = none ∧ l = [] := by
  intro l
  induction l with
  | nil => intro s; simp
  | cons x rest ih =>
    intro s
    obtain ⟨c, hc⟩ := maxStep_isSome f s x
    rw [List.foldl_cons, hc, ih]
    simp

theorem foldlMax_seeded_spec {α : Type} (f : α → Nat) :
    ∀ (l : List α) (b₀ b : α),
      l.foldl (maxStep f) (some b₀) = some b →
      (b = b₀ ∧ ∀ x ∈ l, f x ≤ f b₀) ∨
      (∃ pre post, l = pre ++ b :: post ∧ f b₀ < f b ∧
        (∀ x ∈ pre, f x < f b) ∧ (∀ x ∈ post, f x ≤ f b)) := by
  intro l
  induction l with
  | nil =>
    intro b₀ b h
    simp only [List.foldl_nil, Option.some.injEq] at h
    exact Or.inl ⟨h.symm, by simp⟩
  | cons x rest ih =>
    intro b₀ b h
    rw [List.foldl_cons] at h
    by_cases hx : f b₀ < f x
    · rw [show maxStep f (some b₀) x = some x by simp [maxStep, hx]] at h
      rcases ih x b h with ⟨rfl, hall⟩ | ⟨pre, post, hsplit, hlt, hpre, hpost⟩
      · exact Or.inr ⟨[], rest, rfl, hx, by simp, hall⟩
      · refine Or.inr ⟨x :: pre, post, by rw [hsplit]; rfl, lt_trans hx hlt, ?_, hpost⟩
        intro y hy
        rcases List.mem_cons.mp hy with rfl | hy2
        · exact hlt
        · exact hpre y hy2
    · rw [show maxStep f (some b₀) x = some b₀ by simp [maxStep, hx]] at h
      rcases ih b₀ b h with ⟨rfl, hall⟩ | ⟨pre, post, hsplit, hlt, hpre, hpost⟩
      · refine Or.inl ⟨rfl, ?_⟩
        intro y hy
        rcases List.mem_cons.mp hy with rfl | hy2
        · exact le_of_not_lt hx
        · exact hall y hy2
      · refine Or.inr ⟨x :: pre, post, by rw [hsplit]; rfl, hlt, ?_, hpost⟩
        intro y hy
        rcases List.mem_cons.mp hy with rfl | hy2
        · exact lt_of_le_of_lt (le_of_not_lt hx) hlt
        · exact hpre y hy2

theorem foldlMax_leftmost {α : Type} (f : α → Nat) (l : List α) (b : α)
    (h : l.foldl (maxStep f) none = some b) :
    ∃ pre post, l = pre ++ b :: post ∧
      (∀ x ∈ pre, f x < f b) ∧ (∀ x ∈ post, f x ≤ f b) := by
  cases l with
  | nil => simp at h
  | cons x rest =>
    rw [List.foldl_cons, show maxStep f none x = some x from rfl] at h
    rcases foldlMax_seeded_spec f rest x b h with ⟨rfl, hall⟩ |
      ⟨pre, post, hsplit, hlt, hpre, hpost⟩
    · exact ⟨[], rest, rfl, by simp, hall⟩
    · refine ⟨x :: pre, post, by rw [hsplit]; rfl, ?_, hpost⟩
      intro y hy
      rcases List.mem_cons.mp hy with rfl | hy2
      · exact hlt
      · exact hpre y hy2

theorem foldlMax_dominant {α : Type} (f : α → Nat) (l : List α) (w : α)
    (hw : w ∈ l) (hdom : ∀ x ∈ l, x = w ∨ f x < f w) :
    l.foldl (maxStep f) none = some w := by
  cases hfold : l.foldl (maxStep f) none with
  | none =>
    rw [foldlMax_eq_none] at hfold
    rw [hfold.2] at hw
    simp at hw
  | some b =>
    obtain ⟨pre, post, hsplit, hpre, hpost⟩ := foldlMax_leftmost f l b hfold
    have hb : b ∈ l := by rw [hsplit]; exact List.mem_append_right _ (List.mem_cons_self _ _)
    rcases hdom b hb with rfl | hblt
    · rfl
    · exfalso
      rw [hsplit] at hw
      rcases List.mem_append.mp hw with hwpre | hwc
      · exact absurd (hpre w hwpre) (not_lt_of_lt hblt)
      · rcases List.mem_cons.mp hwc with rfl | hwpost
        · exact lt_irrefl _ hblt
        · exact absurd (lt_of_le_of_lt (hpost w hwpost) hblt) (lt_irrefl _)

/-! ## Decomposing one poll pass into its updates and its winner -/

theorem passEntry_none_of {fetch : String → FetchOutcome} (m₀ : SeenMap)
    {u : String} (hok : latestOk fetch u = none) :
    passEntry fetch m₀ u = none := by
  unfold passEntry
  rw [hok]

theorem passEntry_some_eval {fetch : String → FetchOutcome} (m₀ : SeenMap)
    {u : String} {l : Latest} (hok : latestOk fetch u = some l) :
    passEntry fetch m₀ u =
      (if l.originalText ≠ "" ∧ isNew m₀ u l.id = true then some l else none) := by
  unfold passEntry
  rw [hok]

theorem passEntry_elim {fetch : String → FetchOutcome} {m₀ : SeenMap}
    {u : String} {l : Latest} (h : passEntry fetch m₀ u = some l) :
    latestOk fetch u = some l ∧ l.originalText ≠ "" ∧ isNew m₀ u l.id = true := by
  cases hok : latestOk fetch u with
  | none => rw [passEntry_none_of m₀ hok] at h; simp at h
  | some l2 =>
    rw [passEntry_some_eval m₀ hok] at h
    by_cases hc : l2.originalText ≠ "" ∧ isNew m₀ u l2.id = true
    · rw [if_pos hc] at h
      injection h with h2
      subst h2
      exact ⟨rfl, hc⟩
    · rw [if_neg hc] at h
      simp at h

theorem pollGo_decomp (fetch : String → FetchOutcome) (m₀ : SeenMap) :
    ∀ (users : List String) (m : SeenMap) (best : Option Latest),
      users.Nodup → (∀ u ∈ users, m u = m₀ u) →
      pollGo fetch users m best =
        (applyUpd fetch m₀ users m,
          (users.filterMap (passEntry fetch m₀)).foldl (maxStep latestKey) best) := by
  intro users
  induction users with
  | nil => intro m best _ _; rfl
  | cons u rest ih =>
    intro m best hnd hag
    have hmu : m u = m₀ u := hag u (List.mem_cons_self _ _)
    have hndr : rest.Nodup := (List.nodup_cons.mp hnd).2
    have hur : u ∉ rest := (List.nodup_cons.mp hnd).1
    have hagr : ∀ v ∈ rest, m v = m₀ v := fun v hv => hag v (List.mem_cons_of_mem _ hv)
    cases hf : fetch u with
    | error e =>
      have hpe : passEntry fetch m₀ u = none :=
        passEntry_none_of m₀ (by unfold latestOk; rw [hf])
      simp only [pollGo, applyUpd, List.filterMap_cons, hf, hpe]
      exact ih m best hndr hagr
    | ok olat =>
      cases olat with
      | none =>
        have hpe : passEntry fetch m₀ u = none :=
          passEntry_none_of m₀ (by unfold latestOk; rw [hf])
        simp only [pollGo, applyUpd, List.filterMap_cons, hf, hpe]
        exact ih m best hndr hagr
      | some l =>
        have hok : latestOk fetch u = some l := by
          unfold latestOk
          rw [hf]
        by_cases htext : l.originalText = ""
        · have hpe : passEntry fetch m₀ u = none := by
            rw [passEntry_some_eval m₀ hok]
            rw [if_neg (by simp [htext])]
          simp only [pollGo, applyUpd, List.filterMap_cons, hf, htext, if_true, hpe]
          exact ih m best hndr hagr
        · have hnewc : isNew m u l.id = isNew m₀ u l.id := isNew_congr hmu l.id
          cases hnew : isNew m₀ u l.id with
          | false =>
            have hpe : passEntry fetch m₀ u = none := by
              rw [passEntry_some_eval m₀ hok]
              rw [if_neg (by simp [hnew])]
            simp only [pollGo, applyUpd, List.filterMap_cons, hf, htext, if_false, hpe,
              hnewc, hnew, Bool.false_eq_true, if_neg]
            exact ih m best hndr hagr
          | true =>
            have hpe : passEntry fetch m₀ u = some l := by
              rw [passEntry_some_eval m₀ hok]
              rw [if_pos ⟨htext, hnew⟩]
            have hstep :
                pollGo fetch (u :: rest) m best =
                  pollGo fetch rest (setSeen m u (some l.id))
                    (maxStep latestKey best l) := by
              simp only [pollGo, hf]
              rw [if_neg htext, hnewc, hnew]
              simp
            rw [hstep]
            have hagr2 : ∀ v ∈ rest, setSeen m u (some l.id) v = m₀ v := by
              intro v hv
              have hvne : v ≠ u := fun hvu => hur (hvu ▸ hv)
              rw [setSeen_other m (some l.id) hvne]
              exact hagr v hv
            rw [ih (setSeen m u (some l.id)) (maxStep latestKey best l) hndr hagr2]
            simp only [applyUpd, List.filterMap_cons, hpe, List.foldl_cons]

theorem applyUpd_not_mem (fetch : String → FetchOutcome) (m₀ : SeenMap) :
    ∀ (users : List String) (m : SeenMap) (u : String), u ∉ users →
      applyUpd fetch m₀ users m u = m u := by
  intro users
  induction users with
  | nil => intro m u _; rfl
  | cons v rest ih =>
    intro m u hu
    have huv : u ≠ v := fun h => hu (h ▸ List.mem_cons_self _ _)
    have hur : u ∉ rest := fun h => hu (List.mem_cons_of_mem _ h)
    unfold applyUpd
    cases hpe : passEntry fetch m₀ v with
    | none => exact ih m u hur
    | some l =>
      rw [ih (setSeen m v (some l.id)) u hur]
      exact setSeen_other m (some l.id) huv

theorem applyUpd_mem (fetch : String → FetchOutcome) (m₀ : SeenMap) :
    ∀ (users : List String) (m : SeenMap) (u : String),
      users.Nodup → u ∈ users →
      applyUpd fetch m₀ users m u =
        (match passEntry fetch m₀ u with
         | some l => some (some l.id)
         | none => m u) := by
  intro users
  induction users with
  | nil => intro m u _ hu; simp at hu
  | cons v rest ih =>
    intro m u hnd hu
    have hndr : rest.Nodup := (List.nodup_cons.mp hnd).2
    have hvr : v ∉ rest := (List.nodup_cons.mp hnd).1
    rcases List.mem_cons.mp hu with rfl | hu2
    · have hur : u ∉ rest := hvr
      unfold applyUpd
      cases hpe : passEntry fetch m₀ u with
      | none => rw [applyUpd_not_mem fetch m₀ rest m u hur]
      | some l =>
        rw [applyUpd_not_mem fetch m₀ rest (setSeen m u (some l.id)) u hur]
        exact setSeen_same m u (some l.id)
    · have huv : u ≠ v := fun h => hvr (h ▸ hu2)
      unfold applyUpd
      cases hpe : passEntry fetch m₀ v with
      | none => exact ih m u hndr hu2
      | some l =>
        rw [ih (setSeen m v (some l.id)) u hndr hu2]
        cases passEntry fetch m₀ u with
        | none => exact setSeen_other m (some l.id) huv
        | some l2 => rfl

theorem pollGo_not_mem (fetch : String → FetchOutcome) :
    ∀ (users : List String) (m : SeenMap) (best : Option Latest) (u : String),
      u ∉ users → (pollGo fetch users m best).1 u = m u := by
  intro users
  induction users with
  | nil => intro m best u _; rfl
  | cons v rest ih =>
    intro m best u hu
    have huv : u ≠ v := fun h => hu (h ▸ List.mem_cons_self _ _)
    have hur : u ∉ rest := fun h => hu (List.mem_cons_of_mem _ h)
    cases hf : fetch v with
    | error e =>
      simp only [pollGo, hf]
      exact ih m best u hur
    | ok olat =>
      cases olat with
      | none =>
        simp only [pollGo, hf]
        exact ih m best u hur
      | some l =>
        by_cases htext : l.originalText = ""
        · simp only [pollGo, hf, htext, if_true]
          exact ih m best u hur
        · cases hnew : isNew m v l.id with
          | false =>
            simp only [pollGo, hf, htext, if_false, hnew, Bool.false_eq_true, if_neg]
            exact ih m best u hur
          | true =>
            have hstep :
                pollGo fetch (v :: rest) m best =
                  pollGo fetch rest (setSeen m v (some l.id))
                    (maxStep latestKey best l) := by
              simp only [pollGo, hf]
              rw [if_neg htext, hnew]
              simp
            rw [hstep, ih (setSeen m v (some l.id)) (maxStep latestKey best l) u hur]
            exact setSeen_other m (some l.id) huv

theorem pollGo_cons_congr (fetch : String → FetchOutcome) (x : String)
    {l1 l2 : List String}
    (h : ∀ m best, pollGo fetch l1 m best = pollGo fetch l2 m best) :
    ∀ (m : SeenMap) (best : Option Latest),
      pollGo fetch (x :: l1) m best = pollGo fetch (x :: l2) m best := by
  intro m best
  cases hf : fetch x with
  | error e =>
    simp only [pollGo, hf]
    exact h m best
  | ok olat =>
    cases olat with
    | none =>
      simp only [pollGo, hf]
      exact h m best
    | some l =>
      by_cases htext : l.originalText = ""
      · simp only [pollGo, hf, htext, if_true]
        exact h m best
      · cases hnew : isNew m x l.id with
        | false =>
          simp only [pollGo, hf, htext, if_false, hnew, Bool.false_eq_true, if_neg]
          exact h m best
        | true =>
          have hs1 : pollGo fetch (x :: l1) m best =
              pollGo fetch l1 (setSeen m x (some l.id)) (maxStep latestKey best l) := by
            simp only [pollGo, hf]
            rw [if_neg htext, hnew]
            simp
          have hs2 : pollGo fetch (x :: l2) m best =
              pollGo fetch l2 (setSeen m x (some l.id)) (maxStep latestKey best l) := by
            simp only [pollGo, hf]
            rw [if_neg htext, hnew]
            simp
          rw [hs1, hs2]
          exact h _ _

/-! ## Priming -/

theorem primeLastSeen_not_mem (fetch : String → FetchOutcome) :
    ∀ (users : List String) (m : SeenMap) (u : String), u ∉ users →
      primeLastSeen fetch users m u = m u := by
  intro users
  induction users with
  | nil => intro m u _; rfl
  | cons v rest ih =>
    intro m u hu
    have huv : u ≠ v := fun h => hu (h ▸ List.mem_cons_self _ _)
    have hur : u ∉ rest := fun h => hu (List.mem_cons_of_mem _ h)
    unfold primeLastSeen
    rw [ih _ u hur]
    exact setSeen_other m _ huv

theorem primeLastSeen_mem (fetch : String → FetchOutcome) :
    ∀ (users : List String) (m : SeenMap) (u : String), u ∈ users →
      primeLastSeen fetch users m u = some (Option.map Latest.id (latestOk fetch u)) := by
  intro users
  induction users with
  | nil => intro m u hu; simp at hu
  | cons v rest ih =>
    intro m u hu
    by_cases hur : u ∈ rest
    · unfold primeLastSeen
      exact ih _ u hur
    · have huv : u = v := by
        rcases List.mem_cons.mp hu with h | h
        · exact h
        · exact absurd h hur
      subst huv
      unfold primeLastSeen
      rw [primeLastSeen_not_mem fetch rest _ u hur, setSeen_same]
      cases hf : fetch u with
      | error e => simp [latestOk, hf]
      | ok olat =>
        cases olat with
        | none => simp [latestOk, hf]
        | some l => simp [latestOk, hf]

/-- When every successfully fetched latest id equals the normalized
stored id, one poll pass changes nothing and selects nothing. -/
theorem pollGo_all_seen (fetch : String → FetchOutcome) :
    ∀ (users : List String) (m : SeenMap) (best : Option Latest),
      (∀ u ∈ users, ∀ l, fetch u = Except.ok (some l) → lastIdNorm m u = some l.id) →
      pollGo fetch users m best = (m, best) := by
  intro users
  induction users with
  | nil => intro m best _; rfl
  | cons u rest ih =>
    intro m best hall
    have hrest : ∀ v ∈ rest, ∀ l, fetch v = Except.ok (some l) → lastIdNorm m v = some l.id :=
      fun v hv => hall v (List.mem_cons_of_mem _ hv)
    cases hf : fetch u with
    | error e =>
      simp only [pollGo, hf]
      exact ih m best hrest
    | ok olat =>
      cases olat with
      | none =>
        simp only [pollGo, hf]
        exact ih m best hrest
      | some l =>
        have hid : lastIdNorm m u = some l.id := hall u (List.mem_cons_self _ _) l hf
        have hnew : isNew m u l.id = false := by
          unfold isNew
          rw [if_pos hid]
        by_cases htext : l.originalText = ""
        · simp only [pollGo, hf, htext, if_true]
          exact ih m best hrest
        · simp only [pollGo, hf, htext, if_false, hnew, Bool.false_eq_true, if_neg]
          exact ih m best hrest

/-! ## The item selector -/

theorem pickGo_eq_foldl :
    ∀ (items : List Item) (best : Option (Item × String)),
      pickGo best items = (items.filterMap pickCand).foldl (maxStep pickKey) best := by
  intro items
  induction items with
  | nil => intro best; rfl
  | cons it rest ih =>
    intro best
    cases hx : extractId it with
    | none =>
      have hc : pickCand it = none := by simp [pickCand, hx]
      simp only [pickGo, hx, List.filterMap_cons, hc]
      exact ih best
    | some id =>
      have hc : pickCand it = some (it, id) := by simp [pickCand, hx]
      simp only [pickGo, hx, List.filterMap_cons, hc, List.foldl_cons]
      exact ih _

theorem filterMap_split {α β : Type} (g : α → Option β) :
    ∀ (l : List α) (pc : List β) (b : β) (qc : List β),
      l.filterMap g = pc ++ b :: qc →
      ∃ p a q, l = p ++ a :: q ∧ g a = some b ∧
        p.filterMap g = pc ∧ q.filterMap g = qc := by
  intro l
  induction l with
  | nil =>
    intro pc b qc h
    simp only [List.filterMap_nil] at h
    exact absurd h.symm (List.append_ne_nil_of_right_ne_nil _ (List.cons_ne_nil _ _))
  | cons x rest ih =>
    intro pc b qc h
    cases hx : g x with
    | none =>
      rw [List.filterMap_cons, hx] at h
      obtain ⟨p, a, q, hsplit, hga, hp, hq⟩ := ih pc b qc h
      exact ⟨x :: p, a, q, by rw [hsplit]; rfl, hga,
        by rw [List.filterMap_cons, hx, hp], hq⟩
    | some y =>
      rw [List.filterMap_cons, hx] at h
      cases pc with
      | nil =>
        simp only [List.nil_append, List.cons.injEq] at h
        exact ⟨[], x, rest, rfl, by rw [hx, h.1], rfl, h.2⟩
      | cons z pc2 =>
        simp only [List.cons_append, List.cons.injEq] at h
        obtain ⟨p, a, q, hsplit, hga, hp, hq⟩ := ih pc2 b qc h.2
        exact ⟨x :: p, a, q, by rw [hsplit]; rfl, hga,
          by rw [List.filterMap_cons, hx, hp, h.1], hq⟩

theorem leadingDigits_spec :
    ∀ l : List Char, (leadingDigits l).all Char.isDigit = true ∧
      ∃ b, l = leadingDigits l ++ b := by
  intro l
  induction l with
  | nil => exact ⟨rfl, [], rfl⟩
  | cons c cs ih =>
    by_cases hc : c.isDigit
    · obtain ⟨hall, b, hb⟩ := ih
      refine ⟨?_, b, ?_⟩
      · simp [leadingDigits, hc, hall]
      · rw [show leadingDigits (c :: cs) = c :: leadingDigits cs by simp [leadingDigits, hc]]
        rw [List.cons_append, ← hb]
    · have h0 : leadingDigits (c :: cs) = [] := by simp [leadingDigits, hc]
      exact ⟨by rw [h0]; rfl, c :: cs, by rw [h0]; rfl⟩

theorem tryStatusAt_some {l ds : List Char} (h : tryStatusAt l = some ds) :
    ds ≠ [] ∧ ds.all Char.isDigit = true ∧ ∃ b, l = statusPat ++ ds ++ b := by
  unfold tryStatusAt at h
  by_cases hp : statusPat.isPrefixOf l
  · rw [if_pos hp] at h
    obtain ⟨t, ht⟩ := (List.isPrefixOf_iff_prefix.mp hp)
    have hdrop : l.drop 8 = t := by
      rw [← ht, show (8 : Nat) = statusPat.length from rfl, List.drop_left]
    rw [hdrop] at h
    by_cases he : (leadingDigits t).isEmpty
    · rw [if_pos he] at h
      simp at h
    · rw [if_neg he] at h
      injection h with h2
      subst h2
      obtain ⟨hall, b, hb⟩ := leadingDigits_spec t
      refine ⟨fun hnil => he (by rw [hnil]; rfl), hall, b, ?_⟩
      rw [← ht, List.append_assoc, ← hb]
  · rw [if_neg hp] at h
    simp at h

theorem scanStatus_some :
    ∀ {l ds : List Char}, scanStatus l = some ds →
      ds ≠ [] ∧ ds.all Char.isDigit = true ∧
        ∃ a b, l = a ++ statusPat ++ ds ++ b := by
  intro l
  induction l with
  | nil => intro ds h; simp [scanStatus] at h
  | cons c cs ih =>
    intro ds h
    unfold scanStatus at h
    cases htry : tryStatusAt (c :: cs) with
    | some ds2 =>
      rw [htry] at h
      injection h with h2
      subst h2
      obtain ⟨hne, hall, b, hb⟩ := tryStatusAt_some htry
      exact ⟨hne, hall, [], b, by simpa using hb⟩
    | none =>
      rw [htry] at h
      obtain ⟨hne, hall, a, b, hab⟩ := ih h
      exact ⟨hne, hall, c :: a, b, by rw [hab]; rfl⟩

theorem extractTweetIdFromLink_some {s id : String}
    (h : extractTweetIdFromLink s = some id) :
    id ≠ "" ∧ id.toList.all Char.isDigit = true ∧
      ∃ a b, s.toList = a ++ statusPat ++ id.toList ++ b := by
  unfold extractTweetIdFromLink at h
  by_cases hs : s = ""
  · rw [if_pos hs] at h
    simp at h
  · rw [if_neg hs] at h
    obtain ⟨ds, hds, hid⟩ := Option.map_eq_some'.mp h
    obtain ⟨hne, hall, a, b, hab⟩ := scanStatus_some hds
    have hidl : id.toList = ds := by rw [← hid]; rfl
    refine ⟨?_, by rw [hidl]; exact hall, a, b, by rw [hidl]; exact hab⟩
    intro hnil
    apply hne
    rw [← hidl, hnil]
    rfl

/-! ## The title separator search -/

theorem isPrefixOf_nil_false {pat : List Char} (hpat : pat ≠ []) :
    pat.isPrefixOf ([] : List Char) = false := by
  cases pat with
  | nil => exact absurd rfl hpat
  | cons c cs => rfl

theorem jsIndexOf_some_iff {pat : List Char} (hpat : pat ≠ []) :
    ∀ (l : List Char) (i : Nat),
      jsIndexOf pat l = some i ↔
        (pat.isPrefixOf (l.drop i) = true ∧
          ∀ j, j < i → pat.isPrefixOf (l.drop j) = false) := by
  intro l
  induction l with
  | nil =>
    intro i
    constructor
    · intro h; simp [jsIndexOf] at h
    · intro ⟨h1, _⟩
      rw [List.drop_nil, isPrefixOf_nil_false hpat] at h1
      simp at h1
  | cons c cs ih =>
    intro i
    by_cases hp : pat.isPrefixOf (c :: cs) = true
    · rw [show jsIndexOf pat (c :: cs) = some 0 by simp [jsIndexOf, hp]]
      constructor
      · intro h
        injection h with h2
        subst h2
        exact ⟨hp, fun j hj => absurd hj (Nat.not_lt_zero j)⟩
      · intro ⟨h1, h2⟩
        cases i with
        | zero => rfl
        | succ k =>
          have h0 := h2 0 (Nat.succ_pos k)
          rw [List.drop_zero, hp] at h0
          simp at h0
    · have hpf : pat.isPrefixOf (c :: cs) = false := by
        cases hv : pat.isPrefixOf (c :: cs)
        · rfl
        · exact absurd hv hp
      rw [show jsIndexOf pat (c :: cs) = (jsIndexOf pat cs).map (fun n => n + 1) by
        simp [jsIndexOf, hpf]]
      cases i with
      | zero =>
        constructor
        · intro h
          obtain ⟨i2, _, hi2⟩ := Option.map_eq_some'.mp h
          exact absurd hi2 (Nat.succ_ne_zero i2)
        · intro ⟨h1, _⟩
          rw [List.drop_zero, hpf] at h1
          simp at h1
      | succ k =>
        constructor
        · intro h
          obtain ⟨i2, hfind, hi2⟩ := Option.map_eq_some'.mp h
          have hk : i2 = k := by omega
          rw [hk] at hfind
          obtain ⟨h1, h2⟩ := (ih k).mp hfind
          refine ⟨h1, ?_⟩
          intro j hj
          cases j with
          | zero => rw [List.drop_zero]; exact hpf
          | succ j2 => exact h2 j2 (by omega)
        · intro ⟨h1, h2⟩
          have hfind : jsIndexOf pat cs = some k := by
            refine (ih k).mpr ⟨h1, ?_⟩
            intro j hj
            exact h2 (j + 1) (by omega)
          rw [hfind]
          rfl

theorem jsIndexOf_eq_none {pat : List Char} (hpat : pat ≠ []) (l : List Char)
    (h : ∀ j, pat.isPrefixOf (l.drop j) = false) : jsIndexOf pat l = none := by
  cases hfind : jsIndexOf pat l with
  | none => rfl
  | some i =>
    obtain ⟨h1, _⟩ := (jsIndexOf_some_iff hpat l i).mp hfind
    rw [h i] at h1
    simp at h1

/-! ## Whitespace trimming and the bare-URL test -/

theorem dropWhile_eq_self_of_all {p : Char → Bool} {l : List Char}
    (h : ∀ c ∈ l, p c = false) : l.dropWhile p = l := by
  cases l with
  | nil => rfl
  | cons c cs =>
    rw [List.dropWhile_cons, h c (List.mem_cons_self _ _)]
    simp

theorem jsTrim_eq_self_of_all {l : List Char}
    (h : ∀ c ∈ l, isJsWhitespace c = false) : jsTrim l = l := by
  unfold jsTrim
  rw [dropWhile_eq_self_of_all h,
    dropWhile_eq_self_of_all (fun c hc => h c (List.mem_reverse.mp hc)),
    List.reverse_reverse]

theorem charCI_elim {a c : Char} (h : charCI a c = true) :
    c = a ∨ c = a.toUpper := by
  simp only [charCI, Bool.or_eq_true, decide_eq_true_eq] at h
  exact h

theorem urlTailOk_elim {l : List Char} (h : urlTailOk l = true) :
    ∃ rest, l = ':' :: '/' :: '/' :: rest ∧ rest ≠ [] ∧
      ∀ c ∈ rest, isJsWhitespace c = false := by
  unfold urlTailOk at h
  split at h
  · next rest =>
    simp only [Bool.and_eq_true, Bool.not_eq_true', List.all_eq_true] at h
    refine ⟨rest, rfl, ?_, ?_⟩
    · intro hnil
      rw [hnil] at h
      simp at h
    · intro c hc
      have := h.2 c hc
      simp only [Bool.not_eq_true'] at this
      exact this
  · simp at h

theorem isBareUrl_all_not_ws {l : List Char} (h : isBareUrl l = true) :
    ∀ c ∈ l, isJsWhitespace c = false := by
  unfold isBareUrl at h
  split at h
  · next c1 c2 c3 c4 rest =>
    simp only [Bool.and_eq_true] at h
    obtain ⟨⟨⟨⟨hc1, hc2⟩, hc3⟩, hc4⟩, hor⟩ := h
    have hch : ∀ c : Char, (c = 'h' ∨ c = 'H') → isJsWhitespace c = false := by
      rintro c (rfl | rfl) <;> rfl
    have hct : ∀ c : Char, (c = 't' ∨ c = 'T') → isJsWhitespace c = false := by
      rintro c (rfl | rfl) <;> rfl
    have hcp : ∀ c : Char, (c = 'p' ∨ c = 'P') → isJsWhitespace c = false := by
      rintro c (rfl | rfl) <;> rfl
    have hcs : ∀ c : Char, (c = 's' ∨ c = 'S') → isJsWhitespace c = false := by
      rintro c (rfl | rfl) <;> rfl
    have hrest : ∀ c ∈ rest, isJsWhitespace c = false := by
      rw [Bool.or_eq_true] at hor
      rcases hor with htail | hmix
      · obtain ⟨r2, hr2, _, hall⟩ := urlTailOk_elim htail
        subst hr2
        intro c hc
        rcases List.mem_cons.mp hc with rfl | hc
        · rfl
        rcases List.mem_cons.mp hc with rfl | hc
        · rfl
        rcases List.mem_cons.mp hc with rfl | hc
        · rfl
        exact hall c hc
      · split at hmix
        · next c5 rest2 =>
          simp only [Bool.and_eq_true] at hmix
          obtain ⟨hc5, htail⟩ := hmix
          obtain ⟨r2, hr2, _, hall⟩ := urlTailOk_elim htail
          subst hr2
          intro c hc
          rcases List.mem_cons.mp hc with rfl | hc
          · exact hcs c (charCI_elim hc5)
          rcases List.mem_cons.mp hc with rfl | hc
          · rfl
          rcases List.mem_cons.mp hc with rfl | hc
          · rfl
          rcases List.mem_cons.mp hc with rfl | hc
          · rfl
          exact hall c hc
        · simp at hmix
    intro c hc
    rcases List.mem_cons.mp hc with rfl | hc
    · exact hch c (charCI_elim hc1)
    rcases List.mem_cons.mp hc with rfl | hc
    · exact hct c (charCI_elim hc2)
    rcases List.mem_cons.mp hc with rfl | hc
    · exact hct c (charCI_elim hc3)
    rcases List.mem_cons.mp hc with rfl | hc
    · exact hcp c (charCI_elim hc4)
    exact hrest c hc
  · simp at h

theorem strTrim_eq_self_of_bareUrl {t : String} (h : isBareUrl t.toList = true) :
    strTrim t = t := by
  unfold strTrim
  rw [jsTrim_eq_self_of_all (isBareUrl_all_not_ws h)]
  rfl

theorem isBareUrl_ne_empty {t : String} (h : isBareUrl t.toList = true) :
    t ≠ "" := by
  intro hnil
  rw [hnil] at h
  simp [isBareUrl] at h

/-! ## The per-guild fan-out -/

theorem notifyTargets_snd (gm : List (String × List String))
    (t : Notification) : ∀ d ∈ notifyTargets gm t, d.2 = t := by
  intro d hd
  obtain ⟨p, _, hp⟩ := List.mem_map.mp hd
  rw [← hp]

theorem notifyTargets_count_zero (t : Notification) :
    ∀ (gm : List (String × List String)) (g : String),
      g ∉ gm.map Prod.fst →
      ((notifyTargets gm t).map Prod.fst).count g = 0 := by
  intro gm g hg
  rw [List.count_eq_zero]
  intro hmem
  apply hg
  obtain ⟨d, hd, hfst⟩ := List.mem_map.mp hmem
  obtain ⟨p, hpmem, hp⟩ := List.mem_map.mp hd
  have hpm : p ∈ gm := List.mem_of_mem_filter hpmem
  rw [← hfst, ← hp]
  exact List.mem_map.mpr ⟨p, hpm, rfl⟩

theorem notifyTargets_cons (p : String × List String)
    (rest : List (String × List String)) (t : Notification) :
    notifyTargets (p :: rest) t =
      if p.2.contains t.username then (p.1, t) :: notifyTargets rest t
      else notifyTargets rest t := by
  unfold notifyTargets
  rw [List.filter_cons]
  by_cases hc : p.2.contains t.username
  · rw [if_pos hc, if_pos hc, List.map_cons]
  · rw [if_neg hc, if_neg hc]

theorem notifyTargets_count (t : Notification) :
    ∀ (gm : List (String × List String)),
      (gm.map Prod.fst).Nodup →
      ∀ (g : String) (lst : List String), (g, lst) ∈ gm →
        ((notifyTargets gm t).map Prod.fst).count g =
          if lst.contains t.username then 1 else 0 := by
  intro gm
  induction gm with
  | nil => intro _ g lst h; simp at h
  | cons p rest ih =>
    intro hnd g lst hmem
    obtain ⟨g0, l0⟩ := p
    simp only [List.map_cons] at hnd
    have hkey : g0 ∉ rest.map Prod.fst := (List.nodup_cons.mp hnd).1
    have hndr : (rest.map Prod.fst).Nodup := (List.nodup_cons.mp hnd).2
    rcases List.mem_cons.mp hmem with heq | hmem2
    · injection heq with hg hl
      subst hg
      subst hl
      rw [notifyTargets_cons]
      by_cases hc : lst.contains t.username
      · rw [if_pos (by simpa using hc), if_pos hc]
        simp only [List.map_cons, List.count_cons_self]
        rw [notifyTargets_count_zero t rest g hkey]
      · rw [if_neg (by simpa using hc), if_neg hc]
        exact notifyTargets_count_zero t rest g hkey
    · have hgr : g ∈ rest.map Prod.fst :=
        List.mem_map.mpr ⟨(g, lst), hmem2, rfl⟩
      have hne : g ≠ g0 := fun h => hkey (h ▸ hgr)
      rw [notifyTargets_cons]
      by_cases hc : l0.contains t.username
      · rw [if_pos (by simpa using hc)]
        simp only [List.map_cons]
        rw [List.count_cons_of_ne hne]
        exact ih hndr g lst hmem2
      · rw [if_neg (by simpa using hc)]
        exact ih hndr g lst hmem2

/-! ## Claim C1 -/

/-- Claim C1 counterexample: after priming records id 10 for `alice`, a
tick observing the smaller id 7 overwrites the stored id downwards and
selects the item for notification, so the stored identifier is not
monotone and an item with a smaller identifier is notified. -/
theorem c1_seen_state_can_decrease :
    (primeLastSeen exFetchTen ["alice"] emptySeen) "alice" = some (some "10") ∧
    (pollGo exFetchSeven ["alice"] (primeLastSeen exFetchTen ["alice"] emptySeen) none).1
      "alice" = some (some "7") ∧
    (pollGo exFetchSeven ["alice"] (primeLastSeen exFetchTen ["alice"] emptySeen) none).2 =
      some ⟨"alice", "7", "https://x.com/alice/status/7", "ho"⟩ ∧
    strToNat "7" < strToNat "10" :=
  ⟨by decide, by decide, by decide, by decide⟩

/-- Claim C1 (amended): the stored identifier is overwritten by any
freshly observed latest id that differs from it (it may decrease); a
latest item whose id equals the normalized stored id is never selected —
whatever is selected passed the inequality test — and immediately after
priming, re-observing the same latest items updates nothing and selects
nothing. -/
theorem c1_equal_id_never_selected_and_prime_baseline :
    (∀ (fetch : String → FetchOutcome) (users : List String) (m₀ : SeenMap) (u : String),
      users.Nodup → u ∈ users →
      ∀ l, fetch u = Except.ok (some l) → lastIdNorm m₀ u = some l.id →
        (pollGo fetch users m₀ none).1 u = m₀ u) ∧
    (∀ (fetch : String → FetchOutcome) (users : List String) (m₀ : SeenMap) (b : Latest),
      users.Nodup → (pollGo fetch users m₀ none).2 = some b →
      ∃ u, u ∈ users ∧ latestOk fetch u = some b ∧
        b.originalText ≠ "" ∧ isNew m₀ u b.id = true) ∧
    (∀ (fetch : String → FetchOutcome) (users : List String) (m₀ : SeenMap),
      (∀ u l, fetch u = Except.ok (some l) → l.id ≠ "") →
      pollGo fetch users (primeLastSeen fetch users m₀) none =
        (primeLastSeen fetch users m₀, none)) := by
  refine ⟨?_, ?_, ?_⟩
  · intro fetch users m₀ u hnd hu l hf hlast
    have hok : latestOk fetch u = some l := by unfold latestOk; rw [hf]
    have hnew : isNew m₀ u l.id = false := by unfold isNew; rw [if_pos hlast]
    have hpe : passEntry fetch m₀ u = none := by
      rw [passEntry_some_eval m₀ hok]
      rw [if_neg (by simp [hnew])]
    rw [pollGo_decomp fetch m₀ users m₀ none hnd (fun _ _ => rfl)]
    show applyUpd fetch m₀ users m₀ u = m₀ u
    rw [applyUpd_mem fetch m₀ users m₀ u hnd hu, hpe]
  · intro fetch users m₀ b hnd hb
    rw [pollGo_decomp fetch m₀ users m₀ none hnd (fun _ _ => rfl)] at hb
    have hb2 : (users.filterMap (passEntry fetch m₀)).foldl (maxStep latestKey) none =
        some b := hb
    obtain ⟨pre, post, hsplit, _, _⟩ := foldlMax_leftmost latestKey _ b hb2
    have hbmem : b ∈ users.filterMap (passEntry fetch m₀) := by
      rw [hsplit]
      exact List.mem_append_right _ (List.mem_cons_self _ _)
    obtain ⟨u, hu, hpe⟩ := List.mem_filterMap.mp hbmem
    obtain ⟨hok, htext, hnew⟩ := passEntry_elim hpe
    exact ⟨u, hu, hok, htext, hnew⟩
  · intro fetch users m₀ hidne
    apply pollGo_all_seen
    intro u hu l hf
    have hok : latestOk fetch u = some l := by unfold latestOk; rw [hf]
    have hp := primeLastSeen_mem fetch users m₀ u hu
    rw [hok] at hp
    simp only [Option.map_some'] at hp
    have hn : lastIdNorm (primeLastSeen fetch users m₀) u =
        if l.id = "" then none else some l.id := by
      unfold lastIdNorm
      rw [hp]
    rw [hn, if_neg (hidne u l hf)]

/-- Claim C1 witness: the amended baseline statement at a concrete
fetch function and user list. -/
theorem c1_witness :
    pollGo exFetchTen ["alice"] (primeLastSeen exFetchTen ["alice"] emptySeen) none =
      (primeLastSeen exFetchTen ["alice"] emptySeen, none) := by
  apply c1_equal_id_never_selected_and_prime_baseline.2.2 exFetchTen ["alice"] emptySeen
  intro u l h
  simp only [exFetchTen] at h
  injection h with h1
  injection h1 with h2
  rw [← h2]
  decide

/-! ## Claim C2 -/

/-- Claim C2 counterexample: with id 10 recorded for `alice`, the
candidate id 7 passes the newness test although 7 is numerically smaller
than 10, so the test is not "strictly greater by big-integer
comparison". -/
theorem c2_smaller_id_passes_newness_test :
    isNew (setSeen emptySeen "alice" (some "10")) "alice" "7" = true ∧
    lastIdNorm (setSeen emptySeen "alice" (some "10")) "alice" = some "10" ∧
    strToNat "7" < strToNat "10" :=
  ⟨by decide, by decide, by decide⟩

/-- Claim C2 (amended): the newness test `pollOnce` applies succeeds
exactly when the candidate id differs from every non-empty recorded id —
equivalently, when nothing usable is recorded (key absent, stored
`null`, or stored empty string) or the stored id is a different
string.  It is plain string inequality, not a numeric comparison. -/
theorem c2_newness_test_is_inequality :
    ∀ (m : SeenMap) (u id : String),
      isNew m u id = true ↔ (∀ s, m u = some (some s) → s ≠ "" → s ≠ id) := by
  intro m u id
  constructor
  · intro h s hs hse heq
    have hl : lastIdNorm m u = some id := by
      rw [lastIdNorm_str hs, if_neg hse, heq]
    unfold isNew at h
    rw [if_pos hl] at h
    simp at h
  · intro h
    unfold isNew
    cases hl : lastIdNorm m u with
    | none => simp
    | some s =>
      obtain ⟨hm2, hse⟩ := lastIdNorm_some_inv hl
      have hne : s ≠ id := h s hm2 hse
      rw [if_neg (fun hh => hne (Option.some.inj hh))]

/-- Claim C2 witness: with nothing recorded, any candidate id is new. -/
theorem c2_witness : isNew emptySeen "alice" "5" = true := by
  apply (c2_newness_test_is_inequality emptySeen "alice" "5").mpr
  intro s hs
  exact absurd hs (fun h => Option.noConfusion h)

/-! ## Claim C7 -/

/-- Claim C7: a username whose fetch throws contributes nothing to the
tick — the poll pass over any list containing it equals the poll pass
with it removed, and its seen-state entry is untouched; in particular
every other username is still processed exactly as before. -/
theorem c7_fetch_failure_isolated (fetch : String → FetchOutcome) (u : String)
    (hu : fetch u = Except.error ()) :
    (∀ (pre post : List String) (m : SeenMap) (best : Option Latest),
      pollGo fetch (pre ++ u :: post) m best = pollGo fetch (pre ++ post) m best) ∧
    (∀ (pre post : List String) (m : SeenMap) (best : Option Latest),
      u ∉ pre → u ∉ post →
      (pollGo fetch (pre ++ u :: post) m best).1 u = m u) := by
  have heq : ∀ (pre post : List String) (m : SeenMap) (best : Option Latest),
      pollGo fetch (pre ++ u :: post) m best = pollGo fetch (pre ++ post) m best := by
    intro pre
    induction pre with
    | nil =>
      intro post m best
      simp only [List.nil_append]
      simp only [pollGo, hu]
    | cons x rest ih =>
      intro post m best
      simp only [List.cons_append]
      exact pollGo_cons_congr fetch x (fun m2 b2 => ih post m2 b2) m best
  refine ⟨heq, ?_⟩
  intro pre post m best hp hq
  rw [heq pre post m best]
  apply pollGo_not_mem
  intro hmem
  rcases List.mem_append.mp hmem with h | h
  · exact hp h
  · exact hq h

/-- Claim C7 witness: the isolation statement at a concrete fetch
function where fetching `bad` throws. -/
theorem c7_witness :
    pollGo exFetchBad (["a"] ++ "bad" :: ["c"]) emptySeen none =
      pollGo exFetchBad (["a"] ++ ["c"]) emptySeen none ∧
    (pollGo exFetchBad (["a"] ++ "bad" :: ["c"]) emptySeen none).1 "bad" =
      emptySeen "bad" := by
  have h := c7_fetch_failure_isolated exFetchBad "bad" rfl
  exact ⟨h.1 ["a"] ["c"] emptySeen none,
    h.2 ["a"] ["c"] emptySeen none (by decide) (by decide)⟩

/-! ## Claim C8 -/

/-- Claim C8 counterexample: with `RSS_INTERVAL_MS` set to the
non-numeric string `abc`, the interval passed to the loop is `NaN`,
not 60000. -/
theorem c8_non_numeric_interval_is_nan :
    intervalPassedToLoop (some "abc") = JsNumber.nan ∧
    JsNumber.nan ≠ JsNumber.num 60000 :=
  ⟨by decide, by decide⟩

/-- Claim C8 (amended): the interval passed to the loop is 60000 when
the variable is unset or empty; any other value goes through JavaScript
string-to-number conversion unguarded, so a set non-numeric value
yields `NaN` rather than the 60000 default. -/
theorem c8_interval_amended :
    intervalPassedToLoop none = JsNumber.num 60000 ∧
    intervalPassedToLoop (some "") = JsNumber.num 60000 ∧
    (∀ s : String, s ≠ "" → intervalPassedToLoop (some s) = jsStringToNumber s) := by
  refine ⟨rfl, rfl, ?_⟩
  intro s hs
  simp only [intervalPassedToLoop, startRssLoopInterval, computeIntervalMs,
    Option.getD_some]
  rw [if_neg hs]

/-- Claim C8 witness: a set, non-empty value is converted as written. -/
theorem c8_witness : intervalPassedToLoop (some "Infinity") = JsNumber.inf false := by
  have h := c8_interval_amended.2.2 "Infinity" (by decide)
  exact h.trans (by decide)

/-! ## Claim C9 -/

/-- Claim C9: every successful fetch result carries the canonical URL
rebuilt from the username and the extracted id as
`https://x.com/<username>/status/<id>`, whatever host the feed item's
own link uses. -/
theorem c9_url_rebuilt_canonically (username : String) (items : List Item)
    (r : Latest) (h : fetchLatestTweet username items = some r) :
    r.url = "https://x.com/" ++ username ++ "/status/" ++ r.id := by
  unfold fetchLatestTweet at h
  by_cases he : items.isEmpty
  · rw [if_pos he] at h
    simp at h
  · rw [if_neg he] at h
    cases hp : pickLatestByStatusId items with
    | none => rw [hp] at h; simp at h
    | some pr =>
      obtain ⟨it, id⟩ := pr
      rw [hp] at h
      injection h with h2
      rw [← h2]

/-- Claim C9 witness: a Nitter-hosted item yields an x.com URL. -/
theorem c9_witness :
    exLatNitter.url = "https://x.com/" ++ "jane" ++ "/status/" ++ exLatNitter.id :=
  c9_url_rebuilt_canonically "jane" [exItemNitter] exLatNitter (by decide)

/-! ## Claim C10 -/

/-- Claim C10: for non-empty, non-URL input, a configured provider that
succeeds but returns no text (absent or empty) makes the adapter return
the empty string, not the original input. -/
theorem c10_empty_provider_text_gives_empty
    (f : String → ProviderResult) (t : String)
    (hne : strTrim t ≠ "") (hurl : isBareUrl (strTrim t).toList = false)
    (hres : f (strTrim t) = ProviderResult.ok none ∨
      f (strTrim t) = ProviderResult.ok (some "")) :
    translateToEnglish (some f) t = "" := by
  simp only [translateToEnglish]
  rw [if_neg hne, if_neg (by rw [hurl]; exact fun h => Bool.noConfusion h)]
  rcases hres with h | h
  · rw [h]
  · rw [h]
    rfl

/-- Claim C10 witness: a provider whose result has no text field. -/
theorem c10_witness :
    translateToEnglish (some (fun _ => ProviderResult.ok none)) "hola" = "" :=
  c10_empty_provider_text_gives_empty (fun _ => ProviderResult.ok none) "hola"
    (by decide) (by decide) (Or.inl rfl)

/-! ## Claim C3 -/

/-- Claim C3: in one tick, when identity `w` contributes a passing tweet
`lw` whose id strictly dominates every other passer's id, exactly `lw`
is translated and returned; every passer's seen-state entry is updated
to its own latest id (losers included), every non-passer's entry is
untouched, and the tweet is delivered once per guild whose subscription
list contains `w` and to no other guild. -/
theorem c3_tick_delivers_global_max_and_updates_all
    (provider : Option (String → ProviderResult)) (fetch : String → FetchOutcome)
    (users : List String) (m₀ : SeenMap) (gm : List (String × List String))
    (w : String) (lw : Latest)
    (hnd : users.Nodup) (hw : w ∈ users)
    (hpw : passEntry fetch m₀ w = some lw)
    (hdom : ∀ u ∈ users, u ≠ w → ∀ l, passEntry fetch m₀ u = some l →
      strToNat l.id < strToNat lw.id)
    (husr : ∀ u l, latestOk fetch u = some l → l.username = u)
    (hgnd : (gm.map Prod.fst).Nodup) :
    (pollOnce provider fetch users m₀).2 = some (mkNote provider lw) ∧
    (∀ u ∈ users, ∀ l, passEntry fetch m₀ u = some l →
      (pollOnce provider fetch users m₀).1 u = some (some l.id)) ∧
    (∀ u ∈ users, passEntry fetch m₀ u = none →
      (pollOnce provider fetch users m₀).1 u = m₀ u) ∧
    (∀ g lst, (g, lst) ∈ gm →
      (((tick provider fetch gm users m₀).2).map Prod.fst).count g =
        if lst.contains w then 1 else 0) ∧
    (∀ d ∈ (tick provider fetch gm users m₀).2, d.2 = mkNote provider lw) := by
  have hlwmem : lw ∈ users.filterMap (passEntry fetch m₀) :=
    List.mem_filterMap.mpr ⟨w, hw, hpw⟩
  have hdom2 : ∀ x ∈ users.filterMap (passEntry fetch m₀),
      x = lw ∨ latestKey x < latestKey lw := by
    intro x hx
    obtain ⟨u, hu, hpe⟩ := List.mem_filterMap.mp hx
    by_cases huw : u = w
    · subst huw
      rw [hpw] at hpe
      injection hpe with h2
      exact Or.inl h2.symm
    · exact Or.inr (hdom u hu huw x hpe)
  have hbest : (users.filterMap (passEntry fetch m₀)).foldl (maxStep latestKey) none =
      some lw := foldlMax_dominant latestKey _ lw hlwmem hdom2
  have hpoll : pollGo fetch users m₀ none = (applyUpd fetch m₀ users m₀, some lw) := by
    rw [pollGo_decomp fetch m₀ users m₀ none hnd (fun _ _ => rfl), hbest]
  have h1 : (pollOnce provider fetch users m₀).2 = some (mkNote provider lw) := by
    unfold pollOnce
    rw [hpoll]
    rfl
  have hmap : (pollOnce provider fetch users m₀).1 = applyUpd fetch m₀ users m₀ := by
    unfold pollOnce
    rw [hpoll]
  have husr2 : lw.username = w := husr w lw (passEntry_elim hpw).1
  have hnoteu : (mkNote provider lw).username = w := husr2
  have htick : (tick provider fetch gm users m₀).2 =
      notifyTargets gm (mkNote provider lw) := by
    show (match (pollOnce provider fetch users m₀).2 with
          | none => ([] : List (String × Notification))
          | some t => notifyTargets gm t) = notifyTargets gm (mkNote provider lw)
    rw [h1]
  refine ⟨h1, ?_, ?_, ?_, ?_⟩
  · intro u hu l hpe
    rw [hmap, applyUpd_mem fetch m₀ users m₀ u hnd hu, hpe]
  · intro u hu hpe
    rw [hmap, applyUpd_mem fetch m₀ users m₀ u hnd hu, hpe]
  · intro g lst hgl
    rw [htick]
    have hcount := notifyTargets_count (mkNote provider lw) gm hgnd g lst hgl
    rw [hnoteu] at hcount
    exact hcount
  · intro d hd
    rw [htick] at hd
    exact notifyTargets_snd gm (mkNote provider lw) d hd

/-- Claim C3 witness: the spec's cross-identity scenario (ids 5 against
10, previously 3 and 1): the tick returns `b`'s tweet. -/
theorem c3_witness :
    (pollOnce none exFetchAB ["a", "b"] exSeenAB).2 = some (mkNote none exLatB) := by
  have hdom : ∀ u ∈ ["a", "b"], u ≠ "b" →
      ∀ l, passEntry exFetchAB exSeenAB u = some l →
        strToNat l.id < strToNat exLatB.id := by
    intro u hu hne l hl
    rcases List.mem_cons.mp hu with rfl | hu2
    · have ha : passEntry exFetchAB exSeenAB "a" = some exLatA := by decide
      rw [ha] at hl
      injection hl with h2
      rw [← h2]
      decide
    · rcases List.mem_cons.mp hu2 with rfl | hu3
      · exact absurd rfl hne
      · simp at hu3
  have husr : ∀ u l, latestOk exFetchAB u = some l → l.username = u := by
    intro u l h
    by_cases ha : u = "a"
    · subst ha
      have : latestOk exFetchAB "a" = some exLatA := by decide
      rw [this] at h
      injection h with h2
      rw [← h2]
      rfl
    · by_cases hb : u = "b"
      · subst hb
        have : latestOk exFetchAB "b" = some exLatB := by decide
        rw [this] at h
        injection h with h2
        rw [← h2]
        rfl
      · have : latestOk exFetchAB u = none := by
          unfold latestOk exFetchAB
          rw [if_neg ha, if_neg hb]
        rw [this] at h
        simp at h
  exact (c3_tick_delivers_global_max_and_updates_all none exFetchAB ["a", "b"]
    exSeenAB exGuilds "b" exLatB (by decide) (by decide) (by decide)
    hdom husr (by decide)).1

/-! ## Claim C4 -/

/-- Claim C4: the selector returns `null` exactly when no item has an
extractable id; a returned item carries its own extracted id, that id is
numerically maximal over all extractable ids (`Nat` order on the digit
strings, i.e. arbitrary-precision), the returned item is the first one
attaining the maximum (ties keep the first encountered), every extracted
id is a non-empty digit string read off right after a `/status/`
segment of the link, and the ordering is correct beyond 64-bit range. -/
theorem c4_selector_picks_numerically_greatest :
    (∀ items : List Item,
      pickLatestByStatusId items = none ↔ ∀ it ∈ items, extractId it = none) ∧
    (∀ (items : List Item) (it : Item) (id : String),
      pickLatestByStatusId items = some (it, id) →
      extractId it = some id ∧
      (∀ it2 ∈ items, ∀ id2, extractId it2 = some id2 →
        strToNat id2 ≤ strToNat id) ∧
      ∃ pre post, items = pre ++ it :: post ∧
        (∀ it2 ∈ pre, ∀ id2, extractId it2 = some id2 →
          strToNat id2 < strToNat id)) ∧
    (∀ (s id : String), extractTweetIdFromLink s = some id →
      id ≠ "" ∧ id.toList.all Char.isDigit = true ∧
      ∃ a b, s.toList = a ++ statusPat ++ id.toList ++ b) ∧
    pickLatestByStatusId
      [⟨none, some "https://nitter.net/u/status/99999999999999999999"⟩,
       ⟨none, some "https://nitter.net/u/status/100000000000000000000"⟩] =
      some (⟨none, some "https://nitter.net/u/status/100000000000000000000"⟩,
        "100000000000000000000") ∧
    pickLatestByStatusId
      [⟨some "first", some "https://x.com/u/status/7"⟩,
       ⟨some "second", some "https://x.com/u/status/7"⟩] =
      some (⟨some "first", some "https://x.com/u/status/7"⟩, "7") := by
  refine ⟨?_, ?_, ?_, by decide, by decide⟩
  · intro items
    unfold pickLatestByStatusId
    rw [pickGo_eq_foldl, foldlMax_eq_none]
    simp only [true_and, List.filterMap_eq_nil_iff]
    constructor
    · intro h it hit
      have := h it hit
      unfold pickCand at this
      exact Option.map_eq_none'.mp this
    · intro h it hit
      unfold pickCand
      rw [h it hit]
      rfl
  · intro items it id h
    unfold pickLatestByStatusId at h
    rw [pickGo_eq_foldl] at h
    obtain ⟨pre_c, post_c, hsplit, hpre, hpost⟩ := foldlMax_leftmost pickKey _ _ h
    obtain ⟨p, a, q, hitems, hga, hpfm, hqfm⟩ :=
      filterMap_split pickCand items pre_c (it, id) post_c hsplit
    have haid : a = it ∧ extractId a = some id := by
      unfold pickCand at hga
      obtain ⟨id0, hid0, hpair⟩ := Option.map_eq_some'.mp hga
      injection hpair with hfst hsnd
      exact ⟨hfst, by rw [hid0, hsnd]⟩
    obtain ⟨rfl, hextract⟩ := haid
    refine ⟨hextract, ?_, p, q, hitems, ?_⟩
    · intro it2 hit2 id2 hid2
      have hmem : (it2, id2) ∈ items.filterMap pickCand :=
        List.mem_filterMap.mpr ⟨it2, hit2, by unfold pickCand; rw [hid2]; rfl⟩
      rw [hsplit] at hmem
      rcases List.mem_append.mp hmem with hm | hm
      · exact le_of_lt (hpre _ hm)
      · rcases List.mem_cons.mp hm with heq | hm2
        · injection heq with hfst hsnd
          rw [hsnd]
        · exact hpost _ hm2
    · intro it2 hit2 id2 hid2
      have hmem : (it2, id2) ∈ pre_c := by
        rw [← hpfm]
        exact List.mem_filterMap.mpr ⟨it2, hit2, by unfold pickCand; rw [hid2]; rfl⟩
      exact hpre _ hmem
  · intro s id h
    exact extractTweetIdFromLink_some h

/-- Claim C4 witness: the winning item's own link carries the winning
id, at a pair of ids beyond signed 64-bit range. -/
theorem c4_witness :
    extractId ⟨none, some "https://nitter.net/u/status/100000000000000000000"⟩ =
      some "100000000000000000000" :=
  ((c4_selector_picks_numerically_greatest.2.1
    [⟨none, some "https://nitter.net/u/status/99999999999999999999"⟩,
     ⟨none, some "https://nitter.net/u/status/100000000000000000000"⟩]
    ⟨none, some "https://nitter.net/u/status/100000000000000000000"⟩
    "100000000000000000000" (by decide))).1

/-! ## Claim C5 -/

/-- Claim C5: title extraction strips everything up to and including
the first `"): "` when one occurs (even when a `": "` occurs earlier),
else up to and including the first `": "`, else returns the trimmed
title unchanged; the three spec scenarios evaluate as stated, plus a
preference scenario where both separators occur. -/
theorem c5_title_extraction :
    extractOriginalText ⟨some "Jane (@jane): hello world", none⟩ = "hello world" ∧
    extractOriginalText ⟨some "Jane: hello world", none⟩ = "hello world" ∧
    extractOriginalText ⟨some "no delimiter present", none⟩ = "no delimiter present" ∧
    extractOriginalText ⟨some "Ann: hi (@ann): hello", none⟩ = "hello" ∧
    (∀ (t : String) (i : Nat),
      sepParen.isPrefixOf ((jsTrim t.toList).drop i) = true →
      (∀ j, j < i → sepParen.isPrefixOf ((jsTrim t.toList).drop j) = false) →
      extractTextFromTitle (some t) =
        String.mk (jsTrim ((jsTrim t.toList).drop (i + 3)))) ∧
    (∀ (t : String) (i : Nat),
      (∀ j, sepParen.isPrefixOf ((jsTrim t.toList).drop j) = false) →
      sepColon.isPrefixOf ((jsTrim t.toList).drop i) = true →
      (∀ j, j < i → sepColon.isPrefixOf ((jsTrim t.toList).drop j) = false) →
      extractTextFromTitle (some t) =
        String.mk (jsTrim ((jsTrim t.toList).drop (i + 2)))) ∧
    (∀ t : String,
      (∀ j, sepParen.isPrefixOf ((jsTrim t.toList).drop j) = false) →
      (∀ j, sepColon.isPrefixOf ((jsTrim t.toList).drop j) = false) →
      extractTextFromTitle (some t) = String.mk (jsTrim t.toList)) := by
  refine ⟨by decide, by decide, by decide, by decide, ?_, ?_, ?_⟩
  · intro t i h1 h2
    have hne : ¬((jsTrim t.toList).isEmpty = true) := by
      cases hl : jsTrim t.toList with
      | nil =>
        rw [hl, List.drop_nil, isPrefixOf_nil_false (by decide : sepParen ≠ [])] at h1
        simp at h1
      | cons c cs => simp
    have hidx : jsIndexOf sepParen (jsTrim t.toList) = some i :=
      (jsIndexOf_some_iff (by decide : sepParen ≠ []) (jsTrim t.toList) i).mpr ⟨h1, h2⟩
    simp only [extractTextFromTitle]
    rw [if_neg hne, hidx]
  · intro t i hnopar h1 h2
    have hne : ¬((jsTrim t.toList).isEmpty = true) := by
      cases hl : jsTrim t.toList with
      | nil =>
        rw [hl, List.drop_nil, isPrefixOf_nil_false (by decide : sepColon ≠ [])] at h1
        simp at h1
      | cons c cs => simp
    have hparnone : jsIndexOf sepParen (jsTrim t.toList) = none :=
      jsIndexOf_eq_none (by decide : sepParen ≠ []) _ hnopar
    have hidx : jsIndexOf sepColon (jsTrim t.toList) = some i :=
      (jsIndexOf_some_iff (by decide : sepColon ≠ []) (jsTrim t.toList) i).mpr ⟨h1, h2⟩
    simp only [extractTextFromTitle]
    rw [if_neg hne, hparnone, hidx]
  · intro t hnopar hnocol
    by_cases he : (jsTrim t.toList).isEmpty = true
    · have hl : jsTrim t.toList = [] := by
        cases hl2 : jsTrim t.toList with
        | nil => rfl
        | cons c cs => rw [hl2] at he; simp at he
      simp only [extractTextFromTitle]
      rw [if_pos he, hl]
    · have hparnone : jsIndexOf sepParen (jsTrim t.toList) = none :=
        jsIndexOf_eq_none (by decide : sepParen ≠ []) _ hnopar
      have hcolnone : jsIndexOf sepColon (jsTrim t.toList) = none :=
        jsIndexOf_eq_none (by decide : sepColon ≠ []) _ hnocol
      simp only [extractTextFromTitle]
      rw [if_neg he, hparnone, hcolnone]

/-- Claim C5 witness: the preferred separator statement instantiated at
the first spec scenario, which has its `"): "` at index 11. -/
theorem c5_witness :
    extractTextFromTitle (some "Jane (@jane): hello world") = "hello world" := by
  have h := c5_title_extraction.2.2.2.2.1 "Jane (@jane): hello world" 11
    (by decide) (by decide)
  exact h.trans (by decide)

/-! ## Claim C6 -/

/-- Claim C6 counterexample: with no provider configured, the adapter
returns the trimmed text, not the input unchanged. -/
theorem c6_no_provider_returns_trimmed_not_original :
    translateToEnglish none " hola " = "hola" ∧ (" hola " : String) ≠ "hola" :=
  ⟨by decide, by decide⟩

/-- Claim C6 (amended): the adapter is a total function (no exception
can escape); empty input gives the empty string; an input that is
itself a bare URL is returned unchanged for every provider (so the
provider is never consulted); with no provider, and likewise when the
provider call throws, the returned value is the trimmed input (which
differs from the input only by surrounding whitespace). -/
theorem c6_translator_passthrough_amended :
    (∀ provider, translateToEnglish provider "" = "") ∧
    (∀ (provider : Option (String → ProviderResult)) (t : String),
      isBareUrl t.toList = true → translateToEnglish provider t = t) ∧
    (∀ t : String, translateToEnglish none t = strTrim t) ∧
    (∀ (f : String → ProviderResult) (t : String),
      f (strTrim t) = ProviderResult.err →
      translateToEnglish (some f) t = strTrim t) := by
  refine ⟨?_, ?_, ?_, ?_⟩
  · intro p
    simp only [translateToEnglish]
    rw [if_pos (show strTrim "" = "" by decide)]
  · intro p t h
    have hs : strTrim t = t := strTrim_eq_self_of_bareUrl h
    have hne : t ≠ "" := isBareUrl_ne_empty h
    simp only [translateToEnglish]
    rw [hs, if_neg hne, if_pos h]
  · intro t
    by_cases he : strTrim t = ""
    · simp only [translateToEnglish]
      rw [if_pos he, he]
    · by_cases hb : isBareUrl (strTrim t).toList = true
      · simp only [translateToEnglish]
        rw [if_neg he, if_pos hb]
      · simp only [translateToEnglish]
        rw [if_neg he, if_neg hb]
  · intro f t hf
    by_cases he : strTrim t = ""
    · simp only [translateToEnglish]
      rw [if_pos he, he]
    · by_cases hb : isBareUrl (strTrim t).toList = true
      · simp only [translateToEnglish]
        rw [if_neg he, if_pos hb]
      · simp only [translateToEnglish]
        rw [if_neg he, if_neg hb, hf]

/-- Claim C6 witness: a throwing provider returns the (already trimmed)
input, and a bare URL passes through a throwing provider untouched. -/
theorem c6_witness :
    translateToEnglish (some (fun _ => ProviderResult.err)) "hola" = "hola" ∧
    translateToEnglish (some (fun _ => ProviderResult.err)) "https://example.com/x" =
      "https://example.com/x" := by
  constructor
  · have h := c6_translator_passthrough_amended.2.2.2
      (fun _ => ProviderResult.err) "hola" rfl
    exact h.trans (by decide)
  · exact c6_translator_passthrough_amended.2.1
      (some (fun _ => ProviderResult.err)) "https://example.com/x" (by decide)

end Asoubot
